import Mathlib

set_option maxRecDepth 8192
set_option maxHeartbeats 2000000

/-!
Verification of the AI-news digest pipeline (`src/app.py`).

Text is modelled as `List Char` (Python `str` is a sequence of Unicode code
points) wrapped into Lean `String`s at the API boundary.  Pure helpers of the
source (`_clean_text`, `_first_sentences`, `_choose_emoji`,
`create_formatted_digest`, `fetch_ai_news`, `send_email`, `scheduled_digest`,
`run_scheduler`) are embedded as executable functions; the external
collaborators (feed parsing, SMTP transport, the `schedule` library's clock)
are modelled by explicit parameters (per-feed parse results, a send oracle, a
finite trace of clock ticks).
-/

/-- The Python regex class `\s` restricted to the ASCII whitespace characters
(space, tab, newline, carriage return, vertical tab, form feed); exotic
Unicode whitespace is not modelled. -/
def isSpaceChar (c : Char) : Bool :=
  c = ' ' || c = '\t' || c = '\n' || c = '\r' || c = '\x0b' || c = '\x0c'

/-- One pass of `re.sub(r"\s+", " ", text)`: every maximal run of whitespace
becomes a single blank.  The flag records whether the previous character was
part of a whitespace run already replaced. -/
def collapseAux : Bool → List Char → List Char
  | _, [] => []
  | prevSpace, c :: cs =>
    if isSpaceChar c then
      if prevSpace then collapseAux true cs
      else ' ' :: collapseAux true cs
    else c :: collapseAux false cs

/-- `re.sub(r"\s+", " ", text)`. -/
def collapseWS (l : List Char) : List Char :=
  collapseAux false l

/-- Remove trailing whitespace (the right half of Python `str.strip()`). -/
def dropTrailing : List Char → List Char
  | [] => []
  | c :: cs =>
    let r := dropTrailing cs
    if r = [] && isSpaceChar c then [] else c :: r

/-- Python `str.strip()`: drop leading and trailing whitespace. -/
def stripSpaces (l : List Char) : List Char :=
  dropTrailing (l.dropWhile isSpaceChar)

/-- Scanner for `re.sub(r"<[^>]+>", "", text)`.  `pending = some buf` means a
`<` has been read and `buf` (reversed) holds the following characters, none of
which is `>`; on `>` the buffered tag is dropped (or emitted literally when
the buffer is empty, since `[^>]+` needs at least one character), and a
buffer still open at the end of input is emitted literally because the regex
requires a closing `>`. -/
def rtGo : Option (List Char) → List Char → List Char
  | none, [] => []
  | some buf, [] => '<' :: buf.reverse
  | none, c :: cs =>
    if c = '<' then rtGo (some []) cs else c :: rtGo none cs
  | some buf, c :: cs =>
    if c = '>' then
      if buf = [] then '<' :: '>' :: rtGo none cs else rtGo none cs
    else rtGo (some (c :: buf)) cs

/-- `re.sub(r"<[^>]+>", "", text)`: delete every `<...>` group that contains
at least one character, none of which is `>`. -/
def removeTags (l : List Char) : List Char :=
  rtGo none l

/-- Python `html.unescape`, restricted to the four basic named entities
(with and without the trailing semicolon, as CPython accepts both); the full
HTML5 entity table and numeric references are not modelled.  Replacement text
is never rescanned, exactly as in CPython. -/
def unescapeHtml : List Char → List Char
  | [] => []
  | c :: rest =>
    if c = '&' then
      match rest with
      | 'a' :: 'm' :: 'p' :: ';' :: r => '&' :: unescapeHtml r
      | 'l' :: 't' :: ';' :: r => '<' :: unescapeHtml r
      | 'g' :: 't' :: ';' :: r => '>' :: unescapeHtml r
      | 'q' :: 'u' :: 'o' :: 't' :: ';' :: r => '"' :: unescapeHtml r
      | 'a' :: 'm' :: 'p' :: r => '&' :: unescapeHtml r
      | 'l' :: 't' :: r => '<' :: unescapeHtml r
      | 'g' :: 't' :: r => '>' :: unescapeHtml r
      | 'q' :: 'u' :: 'o' :: 't' :: r => '"' :: unescapeHtml r
      | r => '&' :: unescapeHtml r
    else c :: unescapeHtml rest

/-- `_clean_text` from `src/app.py` on character lists: empty input is
returned unchanged, otherwise HTML tags are removed, entities unescaped and
whitespace collapsed and stripped, in that order. -/
def cleanList (l : List Char) : List Char :=
  if l = [] then [] else stripSpaces (collapseWS (unescapeHtml (removeTags l)))

/-- `_clean_text` from `src/app.py`. -/
def clean_text (s : String) : String :=
  String.mk (cleanList s.data)

/-- Sentence-ending punctuation of the regex `(?<=[.!?])\s+`. -/
def isPunctChar (c : Char) : Bool :=
  c = '.' || c = '!' || c = '?'

/-- True when the accumulator's most recent character (its head, since pieces
are accumulated in reverse) is sentence-ending punctuation. -/
def punctHead : List Char → Bool
  | [] => false
  | c :: _ => isPunctChar c

/-- Scanner for `re.split(r'(?<=[.!?])\s+', text)`.  In mode `false` the
current piece `acc` (reversed) grows; a whitespace character whose
predecessor is `.`, `!` or `?` starts a separator and switches to mode
`true`, which swallows the rest of the whitespace run.  A separator that
runs to the end of input yields a final empty piece, as `re.split` does. -/
def ssRun : Bool → List Char → List Char → List (List Char)
  | false, acc, [] => [acc.reverse]
  | true, acc, [] => [acc.reverse, []]
  | false, acc, c :: cs =>
    if isSpaceChar c && punctHead acc then ssRun true acc cs
    else ssRun false (c :: acc) cs
  | true, acc, c :: cs =>
    if isSpaceChar c then ssRun true acc cs
    else acc.reverse :: ssRun false [c] cs

/-- `re.split(r'(?<=[.!?])\s+', text)`. -/
def splitSent (l : List Char) : List (List Char) :=
  ssRun false [] l

/-- `" ".join(pieces)`. -/
def joinSpace : List (List Char) → List Char
  | [] => []
  | [w] => w
  | w :: ws => w ++ ' ' :: joinSpace ws

/-- `_first_sentences` from `src/app.py` on character lists: clean the text,
split on sentence endings, and rejoin the first `maxSentences` pieces. -/
def firstSentencesL (l : List Char) (maxSentences : Nat) : List Char :=
  stripSpaces (joinSpace ((splitSent (cleanList l)).take maxSentences))

/-- `_first_sentences` from `src/app.py` (default `max_sentences=2`). -/
def first_sentences (s : String) (maxSentences : Nat := 2) : String :=
  String.mk (firstSentencesL s.data maxSentences)

/-- No sentence-ending punctuation at all. -/
def noPunct (l : List Char) : Bool :=
  l.all (fun c => !isPunctChar c)

/-- Python `str.split()` piece collector: `acc` holds the current word in
reverse; whitespace finishes a word, empty pieces are dropped. -/
def swGo : List Char → List Char → List (List Char)
  | acc, [] => if acc = [] then [] else [acc.reverse]
  | acc, c :: cs =>
    if isSpaceChar c then
      if acc = [] then swGo [] cs else acc.reverse :: swGo [] cs
    else swGo (c :: acc) cs

/-- Python `str.split()` with no argument: split on whitespace runs, dropping
empty pieces. -/
def splitWords (l : List Char) : List (List Char) :=
  swGo [] l

/-- Largest `k` such that the first `k` words joined by blanks still fit in
`width` together with the placeholder (the word-dropping step of
`textwrap.shorten`); `k = 0` always fits for the widths used here. -/
def shortenFit (ws : List (List Char)) (width plLen : Nat) : Nat :=
  (((List.range (ws.length + 1)).reverse).find?
    (fun k => (joinSpace (ws.take k)).length + plLen ≤ width)).getD 0

/-- Python `textwrap.shorten(text, width, placeholder=pl)` as documented:
whitespace is collapsed by splitting into words and rejoining with single
blanks; if the result fits in `width` it is returned, otherwise words are
dropped from the end until the remaining words plus the placeholder fit, the
placeholder alone being returned when not even the first word fits. -/
def shortenTo (width : Nat) (pl : List Char) (l : List Char) : List Char :=
  let ws := splitWords l
  let s := joinSpace ws
  if s.length ≤ width then s
  else joinSpace (ws.take (shortenFit ws width pl.length)) ++ pl

/-- The local `_short_title` helper of `create_formatted_digest`:
`textwrap.shorten(_clean_text(t), width=60, placeholder="...")`. -/
def shortTitleL (l : List Char) : List Char :=
  shortenTo 60 "...".data (cleanList l)

/-- Lowercasing of Python `str.lower()`, modelled with `Char.toLower`
(sufficient for the ASCII keyword set of the source). -/
def lowerL (l : List Char) : List Char :=
  l.map Char.toLower

/-- Does `needle` occur at the very start of `hay`? -/
def leadsWith : List Char → List Char → Bool
  | [], _ => true
  | _ :: _, [] => false
  | a :: as, b :: bs => a = b && leadsWith as bs

/-- Python substring containment `needle in hay`. -/
def containsSeq (needle hay : List Char) : Bool :=
  match hay with
  | [] => needle = []
  | _ :: hs => leadsWith needle hay || containsSeq needle hs

/-- `any(kw in t for kw in words)` over a fixed word list. -/
def hasAnyWord (words : List String) (t : List Char) : Bool :=
  words.any (fun w => containsSeq w.data t)

/-- `_choose_emoji` from `src/app.py`: first-match-wins keyword rules over
the lowercased `title + " " + summary`. -/
def choose_emoji (title summary : String) : String :=
  let t := lowerL (title ++ " " ++ summary).data
  if hasAnyWord ["robot", "humanoid", "robotics"] t then "🔥"
  else if hasAnyWord ["index", "metrics", "hype", "data", "analytics"] t then "📊"
  else if hasAnyWord ["protein", "alphafold", "bio", "biotech"] t then "🧬"
  else if hasAnyWord ["privacy", "consent", "data", "security"] t then "🔐"
  else if hasAnyWord ["microsoft", "windows", "pc", "agent"] t then "💻"
  else "🔎"

/-- `AI_KEYWORDS` from `src/app.py`. -/
def AI_KEYWORDS : List String :=
  ["ai", "artificial intelligence", "machine learning", "ml", "llm", "openai",
   "deep learning"]

/-- One raw feed entry: the `title`/`summary`/`link` fields after
`entry.get(..., "")`, so absent fields are already the empty string. -/
structure RawEntry where
  title : String
  summary : String
  link : String
  deriving DecidableEq

/-- One parsed feed: its optional feed-level title and its entries in the
feed's native order. -/
structure RawFeed where
  ftitle : Option String
  entries : List RawEntry
  deriving DecidableEq

/-- An article dict produced by `fetch_ai_news`. -/
structure Article where
  title : String
  summary : String
  link : String
  source : String
  deriving DecidableEq

/-- The keyword test of `fetch_ai_news`:
`any(kw in f"{title} {summary}".lower() for kw in AI_KEYWORDS)`. -/
def matchesKeywords (title summary : String) : Bool :=
  let text := lowerL (title ++ " " ++ summary).data
  AI_KEYWORDS.any (fun kw => containsSeq kw.data text)

/-- The inner loop of `fetch_ai_news` for one successfully parsed feed: keep
matching entries in order, tagging them with the feed title (default
`"Unknown Source"`). -/
def articlesOfFeed (f : RawFeed) : List Article :=
  f.entries.filterMap (fun e =>
    if matchesKeywords e.title e.summary then
      some { title := e.title, summary := e.summary, link := e.link,
             source := f.ftitle.getD "Unknown Source" }
    else none)

/-- All keyword matches across the declared feeds, in feed-declaration order;
`none` models a feed whose parse raised and which is skipped. -/
def allMatches (feeds : List (Option RawFeed)) : List Article :=
  (feeds.map (fun f? => match f? with | none => [] | some f => articlesOfFeed f)).flatten

/-- `fetch_ai_news` from `src/app.py`: the matches, truncated to the first
`maxItems` by `articles[:max_items]`. -/
def fetch_ai_news (feeds : List (Option RawFeed)) (maxItems : Nat := 15) : List Article :=
  (allMatches feeds).take maxItems

/-- Greedy line filling of `textwrap.fill(text, width=78)` on the word list:
words are packed while they fit; a word longer than the width is broken, with
`max(width - len(line) - 1, 1)` characters placed on the current line as in
CPython's long-word handling. -/
def fillGo (cur : List Char) : List (List Char) → List (List Char)
  | [] => if cur = [] then [] else [cur]
  | w :: rest =>
    if cur = [] then
      if w.length ≤ 78 then fillGo w rest
      else w.take 78 :: fillGo [] (w.drop 78 :: rest)
    else
      if cur.length + 1 + w.length ≤ 78 then fillGo (cur ++ ' ' :: w) rest
      else
        if 78 < w.length then
          (cur ++ ' ' :: w.take (max (78 - (cur.length + 1)) 1)) ::
            fillGo [] (w.drop (max (78 - (cur.length + 1)) 1) :: rest)
        else cur :: fillGo [] (w :: rest)
termination_by ws => 2 * ((ws.map List.length).sum + ws.length) + cur.length
decreasing_by
  · simp_arith
  · simp [List.length_drop]
    omega
  · simp_arith
  · simp [List.length_drop]
    omega
  · have hc : cur ≠ [] := by assumption
    have h1 : 1 ≤ cur.length := List.length_pos.mpr hc
    simp
    omega

/-- `"\n".join(lines)`. -/
def joinNL : List (List Char) → List Char
  | [] => []
  | [w] => w
  | w :: ws => w ++ '\n' :: joinNL ws

/-- `textwrap.fill(text, width=78)`. -/
def fill78 (s : String) : String :=
  String.mk (joinNL (fillGo [] (splitWords s.data)))

/-- `_short_title` of `create_formatted_digest`. -/
def short_title (t : String) : String :=
  String.mk (shortTitleL t.data)

/-- The fixed header and intro lines of the digest body, echoing the subject. -/
def headerLines (subject : String) : List String :=
  ["AI Updates Digest — Your Daily Briefing",
   "Subject: " ++ subject,
   "",
   "Hello Reader,",
   "",
   "Here’s your crisp, high-value rundown of the most important AI developments this week — curated, structured, and enhanced for clarity.",
   ""]

/-- The body lines emitted for the `i`-th (1-based) selected article: emoji
headline, optional word-wrapped three-sentence summary, source line, blank
separator. -/
def bulletBlock (i : Nat) (a : Article) : List String :=
  let shortSum := first_sentences a.summary 3
  [choose_emoji a.title a.summary ++ " " ++ toString i ++ ". " ++ a.title]
    ++ (if shortSum = "" then [] else [fill78 shortSum])
    ++ ["Source: " ++ a.source, ""]

/-- `for i, art in enumerate(selected, start=1): ...` of the digest body. -/
def bulletLinesGo (i : Nat) : List Article → List String
  | [] => []
  | a :: rest => bulletBlock i a ++ bulletLinesGo (i + 1) rest

/-- The Read-More section lines: one `"{cleaned title} – {link}"` line per
selected article whose link is non-empty. -/
def readMoreLines (selected : List Article) : List String :=
  selected.filterMap (fun a =>
    if a.link = "" then none else some (clean_text a.title ++ " – " ++ a.link))

/-- The digest subject built from the first three selected titles. -/
def subjectOf (selected : List Article) : String :=
  "🚀 Top AI Developments: " ++
    String.intercalate ", " ((selected.take 3).map (fun a => short_title a.title))

/-- All lines of the non-empty-batch digest body, in emission order. -/
def digestLines (articles : List Article) : List String :=
  let selected := articles.take 5
  headerLines (subjectOf selected) ++ bulletLinesGo 1 selected ++
    ["🔗 Read More (Sources)", ""] ++ readMoreLines selected

/-- `create_formatted_digest` from `src/app.py`: the `(subject, body)` pair. -/
def create_formatted_digest (articles : List Article) : String × String :=
  if articles = [] then
    ("AI Updates Digest — Your Daily Briefing",
     "Hello Reader,\n\nNo recent AI-related articles were found.")
  else (subjectOf (articles.take 5), String.intercalate "\n" (digestLines articles))

/-- The recipient argument of `send_email`: either a comma-separated string
or an explicit list of addresses. -/
inductive Recipients where
  | rstr (s : String)
  | rlist (l : List String)
  deriving DecidableEq

/-- Python `s.split(",")`. -/
def splitCommaGo (cur : List Char) : List Char → List (List Char)
  | [] => [cur.reverse]
  | c :: cs =>
    if c = ',' then cur.reverse :: splitCommaGo [] cs else splitCommaGo (c :: cur) cs

/-- The recipient-string normalization of `send_email`:
`[e.strip() for e in recipient_emails.split(",") if e.strip()]`. -/
def normalizeRecipients (s : String) : List String :=
  (((splitCommaGo [] s.data).map stripSpaces).filter (fun p => p ≠ [])).map String.mk

/-- The fixed HTML wrapper that `send_email` builds around the plain body. -/
def htmlWrap (body : String) : String :=
  "\n    <html>\n        <head></head>\n        <body style=\"font-family: Arial, sans-serif; line-height: 1.6; color: #333;\">\n            <div style=\"max-width: 600px; margin: 0 auto; padding: 20px;\">\n                <h2 style=\"color: #0066cc; border-bottom: 2px solid #0066cc; padding-bottom: 10px;\">\n                    AI Updates Digest\n                </h2>\n                <div style=\"margin: 20px 0; white-space: pre-wrap;\">\n"
    ++ body
    ++ "\n                </div>\n                <hr style=\"border: none; border-top: 1px solid #ddd; margin: 20px 0;\">\n                <p style=\"font-size: 12px; color: #666;\">\n                    This email was generated by AI Updates Email Sender\n                </p>\n            </div>\n        </body>\n    </html>\n    "

/-- The multipart message `send_email` hands to the SMTP transport: sender,
resolved recipient list, subject, and the plain and HTML body renderings. -/
structure MailMsg where
  sender : String
  recipients : List String
  subject : String
  bodyPlain : String
  bodyHtml : String
  deriving DecidableEq

/-- `send_email` from `src/app.py` up to the SMTP handoff.  Credentials come
from the environment (`None` or the empty string count as missing, matching
Python falsiness); a string recipient argument is normalized first; a
`ValueError` is modelled as `Except.error` with the source's message, raised
before any message is constructed or delivery attempted. -/
def send_email (emailUser emailPassword : Option String) (recipients : Recipients)
    (subject body : String) : Except String MailMsg :=
  if emailUser.getD "" = "" || emailPassword.getD "" = "" then
    .error "Email credentials (EMAIL_USER / EMAIL_PASSWORD) are not set in .env"
  else
    let rlist :=
      match recipients with
      | .rstr s => normalizeRecipients s
      | .rlist l => l
    if rlist = [] then .error "No recipient emails provided"
    else
      .ok { sender := emailUser.getD "", recipients := rlist, subject := subject,
            bodyPlain := body, bodyHtml := htmlWrap body }

/-- The collaborators one scheduled cycle interacts with: the outcome of the
fetch (which may raise) and the outcome of the send for a given subject and
body (which may raise). -/
structure CycleEnv where
  fetchRes : Except String (List Article)
  sendRes : String → String → Except String Unit

/-- What one run of `scheduled_digest` amounts to: a successful send, an
early return because no articles were found, or an exception caught and
logged by its `try/except`. -/
inductive CycleResult where
  | sentOk
  | noArticles
  | errorLogged (msg : String)
  deriving DecidableEq

/-- `scheduled_digest` from `src/app.py`: fetch, return early on an empty
batch, otherwise format locally and send; every exception from fetch or send
is caught by the surrounding `try/except` and merely logged, so the function
itself never raises. -/
def scheduled_digest (env : CycleEnv) : CycleResult :=
  match env.fetchRes with
  | .error e => .errorLogged e
  | .ok articles =>
    if articles = [] then .noArticles
    else
      let sd := create_formatted_digest articles
      match env.sendRes sd.1 sd.2 with
      | .error e => .errorLogged e
      | .ok _ => .sentOk

/-- One minute-granularity poll of the scheduler loop (`run_pending` is
called once per simulated minute). -/
structure Tick where
  day : Nat
  hour : Nat
  minute : Nat
  deriving DecidableEq

/-- `run_scheduler` from `src/app.py` over a finite trace of clock ticks:
the armed daily job fires on every tick whose time-of-day equals the armed
time (once per simulated day at minute granularity), and each firing runs
`scheduled_digest` in that tick's environment.  The infinite
`while True: run_pending(); sleep(60)` loop is modelled by the finite trace. -/
def run_scheduler (armHour armMinute : Nat) (env : Tick → CycleEnv)
    (ticks : List Tick) : List CycleResult :=
  (ticks.filter (fun t => t.hour == armHour && t.minute == armMinute)).map
    (fun t => scheduled_digest (env t))

/-- Six concrete keyword-matching articles with pairwise distinct titles and
links; the second one has an empty link. -/
def demoBatch : List Article :=
  [⟨"AI alpha", "", "http://l1", "S1"⟩, ⟨"AI beta", "", "", "S2"⟩,
   ⟨"AI gamma", "", "http://l3", "S3"⟩, ⟨"AI delta", "", "http://l4", "S4"⟩,
   ⟨"AI epsilon", "", "http://l5", "S5"⟩, ⟨"AI zeta", "", "http://l6", "S6"⟩]

/-! ### Invariants of whitespace-normalized text -/

/-- No two adjacent whitespace characters. -/
def noDouble : List Char → Bool
  | [] => true
  | [_] => true
  | a :: b :: rest => (!(isSpaceChar a && isSpaceChar b)) && noDouble (b :: rest)

/-- Every whitespace character is a plain blank. -/
def allBlank : List Char → Bool
  | [] => true
  | c :: cs => (!isSpaceChar c || c = ' ') && allBlank cs

/-- The first character, if any, is not whitespace. -/
def headNonSpace : List Char → Bool
  | [] => true
  | c :: _ => !isSpaceChar c

/-- The last character, if any, is not whitespace. -/
def lastNonSpace : List Char → Bool
  | [] => true
  | [c] => !isSpaceChar c
  | _ :: c :: cs => lastNonSpace (c :: cs)

theorem noDouble_tail {c : Char} {l : List Char} (h : noDouble (c :: l) = true) :
    noDouble l = true := by
  cases l with
  | nil => rfl
  | cons d ds => simp [noDouble] at h ⊢; exact h.2

theorem noDouble_cons_of_headNonSpace (c : Char) {l : List Char}
    (h1 : headNonSpace l = true) (h2 : noDouble l = true) : noDouble (c :: l) = true := by
  cases l with
  | nil => rfl
  | cons d ds =>
    simp [headNonSpace] at h1
    simp [noDouble, h1, h2]

theorem noDouble_cons_of_nonspace {c : Char} (hc : isSpaceChar c = false) {l : List Char}
    (h2 : noDouble l = true) : noDouble (c :: l) = true := by
  cases l with
  | nil => rfl
  | cons d ds => simp [noDouble, hc, h2]

theorem allBlank_collapseAux : ∀ (b : Bool) (l : List Char),
    allBlank (collapseAux b l) = true := by
  intro b l
  induction l generalizing b with
  | nil => cases b <;> rfl
  | cons c cs ih =>
    by_cases hc : isSpaceChar c
    · cases b
      · simp [collapseAux, hc, allBlank, ih]
      · simp [collapseAux, hc, ih]
    · cases b <;> simp [collapseAux, hc, allBlank, ih]

theorem headNonSpace_collapseAux_true (l : List Char) :
    headNonSpace (collapseAux true l) = true := by
  induction l with
  | nil => rfl
  | cons c cs ih =>
    by_cases hc : isSpaceChar c
    · simpa [collapseAux, hc] using ih
    · simp [collapseAux, hc, headNonSpace]

theorem noDouble_collapseAux : ∀ (b : Bool) (l : List Char),
    noDouble (collapseAux b l) = true := by
  intro b l
  induction l generalizing b with
  | nil => cases b <;> rfl
  | cons c cs ih =>
    by_cases hc : isSpaceChar c
    · cases b
      · simp only [collapseAux, hc, if_true]
        exact noDouble_cons_of_headNonSpace _ (headNonSpace_collapseAux_true cs) (ih true)
      · simpa [collapseAux, hc] using ih true
    · cases b <;>
      · simp only [collapseAux, hc, if_false, Bool.false_eq_true]
        exact noDouble_cons_of_nonspace (by simp [hc]) (ih false)

theorem headNonSpace_dropWhile (l : List Char) :
    headNonSpace (l.dropWhile isSpaceChar) = true := by
  induction l with
  | nil => rfl
  | cons c cs ih =>
    by_cases hc : isSpaceChar c
    · simpa [List.dropWhile_cons, hc] using ih
    · simp [List.dropWhile_cons, hc, headNonSpace]

theorem noDouble_dropWhile {l : List Char} (h : noDouble l = true) :
    noDouble (l.dropWhile isSpaceChar) = true := by
  induction l with
  | nil => rfl
  | cons c cs ih =>
    by_cases hc : isSpaceChar c
    · simpa [List.dropWhile_cons, hc] using ih (noDouble_tail h)
    · simpa [List.dropWhile_cons, hc] using h

theorem allBlank_dropWhile {l : List Char} (h : allBlank l = true) :
    allBlank (l.dropWhile isSpaceChar) = true := by
  induction l with
  | nil => rfl
  | cons c cs ih =>
    simp [allBlank] at h
    by_cases hc : isSpaceChar c
    · simpa [List.dropWhile_cons, hc] using ih h.2
    · simp [List.dropWhile_cons, hc, allBlank, h.2]

theorem dropTrailing_cons (c : Char) (cs : List Char) :
    dropTrailing (c :: cs) =
      if dropTrailing cs = [] && isSpaceChar c then [] else c :: dropTrailing cs := rfl

theorem lastNonSpace_dropTrailing (l : List Char) :
    lastNonSpace (dropTrailing l) = true := by
  induction l with
  | nil => rfl
  | cons c cs ih =>
    rw [dropTrailing_cons]
    by_cases h0 : (dropTrailing cs = [] && isSpaceChar c) = true
    · simp [h0, lastNonSpace]
    · simp only [h0, if_false, Bool.false_eq_true]
      rcases heq : dropTrailing cs with _ | ⟨d, ds⟩
      · simp [heq, Bool.and_eq_true] at h0
        simp [lastNonSpace, h0]
      · rw [heq] at ih
        simpa [lastNonSpace] using ih

theorem headNonSpace_dropTrailing {l : List Char} (h : headNonSpace l = true) :
    headNonSpace (dropTrailing l) = true := by
  cases l with
  | nil => rfl
  | cons c cs =>
    rw [dropTrailing_cons]
    by_cases h0 : (dropTrailing cs = [] && isSpaceChar c) = true
    · simp [h0, headNonSpace]
    · simpa [h0, headNonSpace] using h

theorem noDouble_dropTrailing {l : List Char} (h : noDouble l = true) :
    noDouble (dropTrailing l) = true := by
  induction l with
  | nil => rfl
  | cons c cs ih =>
    rw [dropTrailing_cons]
    by_cases h0 : (dropTrailing cs = [] && isSpaceChar c) = true
    · simp [h0, noDouble]
    · simp only [h0, if_false, Bool.false_eq_true]
      rcases heq : dropTrailing cs with _ | ⟨d, ds⟩
      · rfl
      · have hnd : noDouble (dropTrailing cs) = true := ih (noDouble_tail h)
        cases cs with
        | nil => simp [dropTrailing] at heq
        | cons d0 ds0 =>
          have hd : d = d0 := by
            rw [dropTrailing_cons] at heq
            by_cases h1 : (dropTrailing ds0 = [] && isSpaceChar d0) = true
            · simp [h1] at heq
            · simp only [h1, if_false, Bool.false_eq_true] at heq
              exact (List.cons.injEq _ _ _ _ ▸ heq).1.symm
          have hpair : (!(isSpaceChar c && isSpaceChar d0)) = true := by
            simp [noDouble] at h
            simp [h.1]
          rw [heq] at hnd
          subst hd
          simp [noDouble, hnd]
          simp at hpair
          exact hpair

theorem allBlank_dropTrailing {l : List Char} (h : allBlank l = true) :
    allBlank (dropTrailing l) = true := by
  induction l with
  | nil => rfl
  | cons c cs ih =>
    simp [allBlank] at h
    rw [dropTrailing_cons]
    by_cases h0 : (dropTrailing cs = [] && isSpaceChar c) = true
    · simp [h0, allBlank]
    · simp only [h0, if_false, Bool.false_eq_true]
      simp [allBlank, ih h.2]
      rcases h.1 with h1 | h1
      · exact Or.inl (by simp [h1])
      · exact Or.inr h1

theorem collapseAux_true_eq_false {l : List Char} (h : headNonSpace l = true) :
    collapseAux true l = collapseAux false l := by
  cases l with
  | nil => rfl
  | cons c cs =>
    simp [headNonSpace] at h
    simp [collapseAux, h]

theorem collapseAux_false_id {l : List Char} (h1 : noDouble l = true)
    (h2 : allBlank l = true) : collapseAux false l = l := by
  induction l with
  | nil => rfl
  | cons c cs ih =>
    simp [allBlank] at h2
    by_cases hc : isSpaceChar c
    · have hcb : c = ' ' := by
        rcases h2.1 with h | h
        · rw [h] at hc; exact absurd hc (by simp)
        · exact h
      have hhead : headNonSpace cs = true := by
        cases cs with
        | nil => rfl
        | cons d ds =>
          simp [noDouble] at h1
          rcases h1.1 with h | h
          · rw [h] at hc; cases hc
          · simp [headNonSpace, h]
      rw [collapseAux, if_pos hc, collapseAux_true_eq_false hhead,
        ih (noDouble_tail h1) h2.2, hcb]
      simp
    · rw [collapseAux, if_neg hc, ih (noDouble_tail h1) h2.2]

theorem dropWhile_id_of_headNonSpace {l : List Char} (h : headNonSpace l = true) :
    l.dropWhile isSpaceChar = l := by
  cases l with
  | nil => rfl
  | cons c cs =>
    simp [headNonSpace] at h
    simp [List.dropWhile_cons, h]

theorem dropTrailing_id_of_lastNonSpace {l : List Char} (h : lastNonSpace l = true) :
    dropTrailing l = l := by
  induction l with
  | nil => rfl
  | cons c cs ih =>
    cases cs with
    | nil =>
      simp [lastNonSpace] at h
      simp [dropTrailing_cons, dropTrailing, h]
    | cons d ds =>
      have hcs : lastNonSpace (d :: ds) = true := by simpa [lastNonSpace] using h
      rw [dropTrailing_cons, ih hcs]
      simp

theorem stripSpaces_id {l : List Char} (h1 : headNonSpace l = true)
    (h2 : lastNonSpace l = true) : stripSpaces l = l := by
  rw [stripSpaces, dropWhile_id_of_headNonSpace h1, dropTrailing_id_of_lastNonSpace h2]

theorem stripSpaces_headNonSpace (l : List Char) :
    headNonSpace (stripSpaces l) = true :=
  headNonSpace_dropTrailing (headNonSpace_dropWhile l)

theorem stripSpaces_lastNonSpace (l : List Char) :
    lastNonSpace (stripSpaces l) = true :=
  lastNonSpace_dropTrailing _

theorem stripSpaces_idem (l : List Char) : stripSpaces (stripSpaces l) = stripSpaces l :=
  stripSpaces_id (stripSpaces_headNonSpace l) (stripSpaces_lastNonSpace l)

theorem cleanList_noDouble (l : List Char) : noDouble (cleanList l) = true := by
  rw [cleanList]
  split
  · rfl
  · exact noDouble_dropTrailing (noDouble_dropWhile (noDouble_collapseAux false _))

theorem cleanList_allBlank (l : List Char) : allBlank (cleanList l) = true := by
  rw [cleanList]
  split
  · rfl
  · exact allBlank_dropTrailing (allBlank_dropWhile (allBlank_collapseAux false _))

theorem cleanList_headNonSpace (l : List Char) : headNonSpace (cleanList l) = true := by
  rw [cleanList]
  split
  · rfl
  · exact stripSpaces_headNonSpace _

theorem cleanList_lastNonSpace (l : List Char) : lastNonSpace (cleanList l) = true := by
  rw [cleanList]
  split
  · rfl
  · exact stripSpaces_lastNonSpace _

theorem removeTags_id {l : List Char} (h : '<' ∉ l) : removeTags l = l := by
  rw [removeTags]
  induction l with
  | nil => rfl
  | cons c cs ih =>
    have hc : c ≠ '<' := fun hc => h (hc ▸ List.mem_cons_self c cs)
    rw [rtGo, if_neg hc, ih (fun hm => h (List.mem_cons_of_mem c hm))]

set_option maxHeartbeats 1600000 in
theorem unescapeHtml_cons_ne {c : Char} (hc : c ≠ '&') (cs : List Char) :
    unescapeHtml (c :: cs) = c :: unescapeHtml cs := by
  conv_lhs => rw [unescapeHtml.eq_def]
  simp [hc]

theorem unescapeHtml_id {l : List Char} (h : '&' ∉ l) : unescapeHtml l = l := by
  induction l with
  | nil => rfl
  | cons c cs ih =>
    have hc : c ≠ '&' := fun hc => h (hc ▸ List.mem_cons_self c cs)
    rw [unescapeHtml_cons_ne hc, ih (fun hm => h (List.mem_cons_of_mem c hm))]

theorem cleanList_clean {l : List Char} (h1 : '<' ∉ cleanList l) (h2 : '&' ∉ cleanList l) :
    cleanList (cleanList l) = cleanList l := by
  by_cases hy : cleanList l = []
  · rw [hy]; rfl
  · rw [cleanList, if_neg hy, removeTags_id h1, unescapeHtml_id h2, collapseWS,
      collapseAux_false_id (cleanList_noDouble l) (cleanList_allBlank l),
      stripSpaces_id (cleanList_headNonSpace l) (cleanList_lastNonSpace l)]

/-! ### C1: idempotence of the Text Normalizer -/

/-- C1 (counterexample): `_clean_text` is not idempotent.  On `"&amp;amp;"`
the first pass unescapes `&amp;` once, yielding `"&amp;"`, and a second pass
unescapes again to `"&"`, so cleaning a cleaned text is not a no-op. -/
theorem clean_text_not_idempotent :
    ¬ clean_text (clean_text "&amp;amp;") = clean_text "&amp;amp;" := by
  decide

/-- C1 (amended): `_clean_text` is idempotent on every input whose cleaned
form contains neither `<` nor `&`, i.e. whenever unescaping cannot re-create
a tag or an entity; the general claim fails only through such re-created
markup. -/
theorem clean_text_idempotent_of_no_markup (s : String)
    (h1 : '<' ∉ (clean_text s).data) (h2 : '&' ∉ (clean_text s).data) :
    clean_text (clean_text s) = clean_text s := by
  have h := cleanList_clean (l := s.data) h1 h2
  show String.mk (cleanList (cleanList s.data)) = String.mk (cleanList s.data)
  rw [h]

/-- Witness for the amended C1 at a concrete input. -/
theorem clean_text_idempotent_witness :
    ('<' ∉ (clean_text "<p>Hi   there</p>").data) ∧
      ('&' ∉ (clean_text "<p>Hi   there</p>").data) ∧
      clean_text (clean_text "<p>Hi   there</p>") = clean_text "<p>Hi   there</p>" :=
  ⟨by decide, by decide,
    clean_text_idempotent_of_no_markup "<p>Hi   there</p>" (by decide) (by decide)⟩

/-! ### C2: the Article Filter -/

/-- C2: `fetch_ai_news` returns at most `maxItems` articles; every returned
article's lowercased `title + " " + summary` contains at least one keyword of
`AI_KEYWORDS` as a substring; and the result is exactly the list of keyword
matches, in feed-declaration and native entry order, truncated to the first
`maxItems`. -/
theorem fetch_ai_news_spec (feeds : List (Option RawFeed)) (maxItems : Nat) :
    (fetch_ai_news feeds maxItems).length ≤ maxItems ∧
      (∀ a, a ∈ fetch_ai_news feeds maxItems →
        matchesKeywords a.title a.summary = true) ∧
      fetch_ai_news feeds maxItems = (allMatches feeds).take maxItems := by
  refine ⟨?_, ?_, rfl⟩
  · rw [fetch_ai_news]
    exact List.length_take_le maxItems (allMatches feeds)
  · intro a ha
    rw [fetch_ai_news] at ha
    have ha' : a ∈ allMatches feeds := List.mem_of_mem_take ha
    rw [allMatches] at ha'
    obtain ⟨chunk, hchunk, hmem⟩ := List.mem_flatten.mp ha'
    obtain ⟨f?, _, rfl⟩ := List.mem_map.mp hchunk
    cases f? with
    | none => simp at hmem
    | some f =>
      obtain ⟨e, _, heq⟩ := List.mem_filterMap.mp hmem
      by_cases hm : matchesKeywords e.title e.summary
      · rw [if_pos hm] at heq
        cases heq
        exact hm
      · rw [if_neg hm] at heq
        cases heq

/-- Witness for C2 at a concrete feed list: the article the filter lets
through indeed matches the keyword set. -/
theorem fetch_ai_news_witness :
    matchesKeywords "OpenAI ships a model" "" = true :=
  (fetch_ai_news_spec
      [some ⟨some "The Verge", [⟨"OpenAI ships a model", "", "http://x"⟩]⟩] 5).2.1
    ⟨"OpenAI ships a model", "", "http://x", "The Verge"⟩ (by decide)

/-! ### C5: emoji selection -/

/-- C5: emoji selection is deterministic first-match-wins: on the concrete
title "Data privacy index rises" (which matches both the 📊 rule via
"index"/"data" and the 🔐 rule via "privacy"/"data") the earlier 📊 rule
wins; and in general whenever the 📊 rule matches and the 🔥 rule does not,
the result is 📊 regardless of which later rules also match. -/
theorem choose_emoji_first_match :
    choose_emoji "Data privacy index rises" "" = "📊" ∧
      ∀ title summary : String,
        hasAnyWord ["index", "metrics", "hype", "data", "analytics"]
            (lowerL (title ++ " " ++ summary).data) = true →
        hasAnyWord ["robot", "humanoid", "robotics"]
            (lowerL (title ++ " " ++ summary).data) = false →
        choose_emoji title summary = "📊" := by
  refine ⟨by decide, ?_⟩
  intro title summary h2 h1
  rw [choose_emoji]
  simp only [h1, h2]
  simp

/-- Witness for C5's general first-match-wins part at a concrete input that
also matches the later 🔐 rule. -/
theorem choose_emoji_witness :
    choose_emoji "Consumer data security report" "" = "📊" :=
  choose_emoji_first_match.2 "Consumer data security report" "" (by decide) (by decide)

/-! ### C6: the empty-batch digest -/

/-- C6: on an empty batch `create_formatted_digest` deterministically returns
the fixed subject and the fixed apologetic body (which is non-empty and
contains the no-articles line), as an ordinary value rather than an error. -/
theorem create_formatted_digest_empty :
    create_formatted_digest [] =
      ("AI Updates Digest — Your Daily Briefing",
       "Hello Reader,\n\nNo recent AI-related articles were found.") ∧
      0 < (create_formatted_digest []).2.length ∧
      containsSeq "No recent AI-related articles were found.".data
        (create_formatted_digest []).2.data = true := by
  refine ⟨rfl, by decide, by decide⟩

/-! ### C10: the scheduled path on an empty batch -/

/-- C10: a scheduled cycle whose fetch produces an empty batch returns early
with the no-articles outcome, independent of the send collaborator, so the
empty-batch digest of the formatter is never emailed on the scheduled path. -/
theorem scheduled_digest_empty_batch (send : String → String → Except String Unit) :
    scheduled_digest ⟨Except.ok [], send⟩ = CycleResult.noArticles := rfl

/-! ### C8: the scheduler loop survives failing cycles -/

/-- C8: every tick matching the armed time produces exactly one cycle result;
an exception raised by the send step of a cycle is caught inside
`scheduled_digest` and turned into a logged-error result; and a (possibly
failing) cycle at one trigger leaves the cycles of all later ticks in the
trace unchanged, so no single failure terminates the loop. -/
theorem run_scheduler_survives_failure (armHour armMinute : Nat)
    (env : Tick → CycleEnv) (ticks : List Tick) :
    (run_scheduler armHour armMinute env ticks).length =
        (ticks.filter (fun t => t.hour == armHour && t.minute == armMinute)).length ∧
      (∀ (fetchRes : Except String (List Article))
          (send : String → String → Except String Unit) (e : String)
          (articles : List Article),
        fetchRes = Except.ok articles → articles ≠ [] →
        send (create_formatted_digest articles).1 (create_formatted_digest articles).2
            = Except.error e →
        scheduled_digest ⟨fetchRes, send⟩ = CycleResult.errorLogged e) ∧
      (∀ (t : Tick) (rest : List Tick),
        (t.hour == armHour && t.minute == armMinute) = true →
        run_scheduler armHour armMinute env (t :: rest) =
          scheduled_digest (env t) :: run_scheduler armHour armMinute env rest) := by
  refine ⟨?_, ?_, ?_⟩
  · rw [run_scheduler, List.length_map]
  · intro fetchRes send e articles hf hne hs
    subst hf
    simp [scheduled_digest, hne, hs]
  · intro t rest ht
    simp [run_scheduler, List.filter_cons, ht]

/-- Witness for C8: a two-day trace where day 0's send raises; the failure is
logged and day 1 still fires and succeeds. -/
theorem run_scheduler_witness :
    scheduled_digest ⟨Except.ok [⟨"AI news", "", "http://a", "Src"⟩],
        fun _ _ => Except.error "smtp down"⟩ = CycleResult.errorLogged "smtp down" ∧
      run_scheduler 9 5
          (fun t => if t.day = 0 then
              ⟨Except.ok [⟨"AI news", "", "http://a", "Src"⟩],
                fun _ _ => Except.error "smtp down"⟩
            else
              ⟨Except.ok [⟨"AI news", "", "http://a", "Src"⟩], fun _ _ => Except.ok ()⟩)
          [⟨0, 9, 5⟩, ⟨0, 23, 59⟩, ⟨1, 9, 5⟩] =
        [CycleResult.errorLogged "smtp down", CycleResult.sentOk] :=
  ⟨(run_scheduler_survives_failure 9 5 (fun _ => ⟨Except.ok [], fun _ _ => Except.ok ()⟩)
        []).2.1
      (Except.ok [⟨"AI news", "", "http://a", "Src"⟩]) (fun _ _ => Except.error "smtp down")
      "smtp down" [⟨"AI news", "", "http://a", "Src"⟩] rfl (by simp) rfl,
    rfl⟩

/-! ### C9: configuration errors and recipient normalization in send_email -/

/-- C9: `send_email` fails with the credentials error before any delivery
whenever a credential is missing, fails with the recipients error when the
normalized recipient set is empty, normalizes a comma-separated recipient
string by trimming each address and dropping empties (every surviving
address is non-empty and trim-stable), and on success the message's
recipient list is exactly the normalized list. -/
theorem send_email_spec :
    (∀ (u p : Option String) (r : Recipients) (subject body : String),
      u.getD "" = "" ∨ p.getD "" = "" →
      send_email u p r subject body =
        Except.error "Email credentials (EMAIL_USER / EMAIL_PASSWORD) are not set in .env") ∧
      (∀ (u p : Option String) (s subject body : String),
        ¬ u.getD "" = "" → ¬ p.getD "" = "" → normalizeRecipients s = [] →
        send_email u p (.rstr s) subject body =
          Except.error "No recipient emails provided") ∧
      (∀ (u p : Option String) (subject body : String),
        ¬ u.getD "" = "" → ¬ p.getD "" = "" →
        send_email u p (.rlist []) subject body =
          Except.error "No recipient emails provided") ∧
      (∀ (s : String) (r : String), r ∈ normalizeRecipients s →
        r ≠ "" ∧ String.mk (stripSpaces r.data) = r) ∧
      (∀ (u p : Option String) (s subject body : String) (msg : MailMsg),
        send_email u p (.rstr s) subject body = Except.ok msg →
        msg.recipients = normalizeRecipients s) := by
  refine ⟨?_, ?_, ?_, ?_, ?_⟩
  · intro u p r subject body h
    rcases h with h | h <;> simp [send_email, h]
  · intro u p s subject body hu hp hs
    simp [send_email, hu, hp, hs]
  · intro u p subject body hu hp
    simp [send_email, hu, hp]
  · intro s r hr
    rw [normalizeRecipients] at hr
    obtain ⟨piece, hmem, rfl⟩ := List.mem_map.mp hr
    obtain ⟨hmem2, hne⟩ := List.mem_filter.mp hmem
    obtain ⟨q, _, rfl⟩ := List.mem_map.mp hmem2
    constructor
    · intro habs
      have : stripSpaces q = [] := congrArg String.data habs
      simp [this] at hne
    · show String.mk (stripSpaces (String.mk (stripSpaces q)).data) = _
      rw [show (String.mk (stripSpaces q)).data = stripSpaces q from rfl,
        stripSpaces_idem]
  · intro u p s subject body msg heq
    by_cases h1 : (u.getD "" = "" || p.getD "" = "") = true
    · rw [send_email] at heq
      rw [if_pos h1] at heq
      cases heq
    · rw [send_email] at heq
      rw [if_neg h1] at heq
      by_cases h2 : normalizeRecipients s = []
      · simp [h2] at heq
      · simp [h2] at heq
        rw [← heq]

/-- Witness for C9: missing password, an all-whitespace recipient string, and
a concrete normalized recipient. -/
theorem send_email_witness :
    send_email (some "user@gmail.com") none (.rstr "a@x.com") "S" "B" =
        Except.error "Email credentials (EMAIL_USER / EMAIL_PASSWORD) are not set in .env" ∧
      send_email (some "user@gmail.com") (some "pw") (.rstr " ,  ") "S" "B" =
        Except.error "No recipient emails provided" ∧
      ("a@x.com" ≠ "" ∧ String.mk (stripSpaces "a@x.com".data) = "a@x.com") :=
  ⟨send_email_spec.1 (some "user@gmail.com") none (.rstr "a@x.com") "S" "B" (Or.inr rfl),
    send_email_spec.2.1 (some "user@gmail.com") (some "pw") " ,  " "S" "B"
      (by decide) (by decide) (by decide),
    send_email_spec.2.2.2.1 " a@x.com , " "a@x.com" (by decide)⟩

/-! ### Joining split pieces of normalized text -/

theorem joinSpace_cons {ps : List (List Char)} (h : ps ≠ []) (p : List Char) :
    joinSpace (p :: ps) = p ++ ' ' :: joinSpace ps := by
  cases ps with
  | nil => exact absurd rfl h
  | cons q qs => rfl

theorem ssRun_ne_nil : ∀ (m : Bool) (acc l : List Char), ssRun m acc l ≠ [] := by
  intro m acc l
  induction l generalizing m acc with
  | nil => cases m <;> simp [ssRun]
  | cons c cs ih =>
    cases m with
    | false =>
      rw [ssRun]
      split
      · exact ih true acc
      · exact ih false (c :: acc)
    | true =>
      rw [ssRun]
      split
      · exact ih true acc
      · simp

theorem ssRun_join : ∀ (l : List Char), noDouble l = true → allBlank l = true →
    lastNonSpace l = true → ∀ acc : List Char,
    joinSpace (ssRun false acc l) = acc.reverse ++ l ∧
      (headNonSpace l = true →
        joinSpace (ssRun true acc l) = acc.reverse ++ ' ' :: l) := by
  intro l
  induction l with
  | nil =>
    intro _ _ _ acc
    constructor
    · simp [ssRun, joinSpace]
    · intro _
      simp [ssRun, joinSpace]
  | cons c cs ih =>
    intro h1 h2 h3 acc
    have h2' : (isSpaceChar c = false ∨ c = ' ') ∧ allBlank cs = true := by
      simpa [allBlank] using h2
    constructor
    · rw [ssRun]
      by_cases hsplit : (isSpaceChar c && punctHead acc) = true
      · have hc : isSpaceChar c = true := by
          simp only [Bool.and_eq_true] at hsplit
          exact hsplit.1
        have hcb : c = ' ' := by
          rcases h2'.1 with h | h
          · rw [h] at hc; cases hc
          · exact h
        have hcs : cs ≠ [] := by
          intro habs
          subst habs
          simp [lastNonSpace] at h3
          rw [h3] at hc
          cases hc
        have h3' : lastNonSpace cs = true := by
          cases cs with
          | nil => exact absurd rfl hcs
          | cons d ds => simpa [lastNonSpace] using h3
        have hhead : headNonSpace cs = true := by
          cases cs with
          | nil => rfl
          | cons d ds =>
            simp [noDouble] at h1
            rcases h1.1 with h | h
            · rw [h] at hc; cases hc
            · simp [headNonSpace, h]
        rw [if_pos hsplit,
          (ih (noDouble_tail h1) h2'.2 h3' acc).2 hhead, hcb]
      · rw [if_neg hsplit]
        have h3' : lastNonSpace cs = true ∨ cs = [] := by
          cases cs with
          | nil => exact Or.inr rfl
          | cons d ds => exact Or.inl (by simpa [lastNonSpace] using h3)
        rcases h3' with h3' | h3'
        · rw [(ih (noDouble_tail h1) h2'.2 h3' (c :: acc)).1]
          simp
        · subst h3'
          simp [ssRun, joinSpace]
    · intro hh
      have hc : isSpaceChar c = false := by simpa [headNonSpace] using hh
      rw [ssRun, if_neg (by simp [hc])]
      rw [joinSpace_cons (ssRun_ne_nil false [c] cs)]
      have h3' : lastNonSpace cs = true ∨ cs = [] := by
        cases cs with
        | nil => exact Or.inr rfl
        | cons d ds => exact Or.inl (by simpa [lastNonSpace] using h3)
      rcases h3' with h3' | h3'
      · rw [(ih (noDouble_tail h1) h2'.2 h3' [c]).1]
        simp
      · subst h3'
        simp [ssRun, joinSpace]

/-- Rejoining the sentence pieces of a whitespace-normalized text restores
the text. -/
theorem splitSent_join {l : List Char} (h1 : noDouble l = true) (h2 : allBlank l = true)
    (h3 : lastNonSpace l = true) : joinSpace (splitSent l) = l := by
  simpa using (ssRun_join l h1 h2 h3 []).1

theorem ssRun_noPunct : ∀ (l acc : List Char), noPunct l = true →
    punctHead acc = false → ssRun false acc l = [acc.reverse ++ l] := by
  intro l
  induction l with
  | nil =>
    intro acc _ _
    simp [ssRun]
  | cons c cs ih =>
    intro acc hl hacc
    simp [noPunct] at hl
    rw [ssRun, if_neg (by simp [hacc])]
    rw [ih (c :: acc) (by simp [noPunct]; exact hl.2) (by simp [punctHead, hl.1])]
    simp

/-! ### C4: sentence-limit extraction -/

/-- C4: `_first_sentences` with K=2 on "A. B. C." gives "A. B." and with K=5
gives "A. B. C."; whenever K is at least the number of sentence pieces the
full normalized text is returned, and text whose normalized form has no
sentence-ending punctuation is returned whole as a single piece (for any
K ≥ 1). -/
theorem first_sentences_spec :
    first_sentences "A. B. C." 2 = "A. B." ∧
      first_sentences "A. B. C." 5 = "A. B. C." ∧
      (∀ (s : String) (k : Nat), (splitSent (cleanList s.data)).length ≤ k →
        first_sentences s k = clean_text s) ∧
      (∀ (s : String) (k : Nat), 1 ≤ k → noPunct (cleanList s.data) = true →
        first_sentences s k = clean_text s) := by
  refine ⟨by decide, by decide, ?_, ?_⟩
  · intro s k hk
    show String.mk (firstSentencesL s.data k) = String.mk (cleanList s.data)
    rw [firstSentencesL, List.take_of_length_le hk,
      splitSent_join (cleanList_noDouble s.data) (cleanList_allBlank s.data)
        (cleanList_lastNonSpace s.data),
      stripSpaces_id (cleanList_headNonSpace s.data) (cleanList_lastNonSpace s.data)]
  · intro s k hk hp
    show String.mk (firstSentencesL s.data k) = String.mk (cleanList s.data)
    rw [firstSentencesL, splitSent, ssRun_noPunct (cleanList s.data) [] hp rfl]
    obtain ⟨k', rfl⟩ := Nat.exists_eq_add_of_le hk
    rw [show [List.reverse [] ++ cleanList s.data].take (1 + k')
        = [List.reverse [] ++ cleanList s.data] from by simp [List.take_succ_cons]]
    simp only [List.reverse_nil, List.nil_append, joinSpace]
    rw [stripSpaces_id (cleanList_headNonSpace s.data) (cleanList_lastNonSpace s.data)]

/-- Witness for C4's general parts at concrete inputs. -/
theorem first_sentences_witness :
    first_sentences "Hello there. Bye." 7 = clean_text "Hello there. Bye." ∧
      first_sentences "no dots at all" 2 = clean_text "no dots at all" :=
  ⟨first_sentences_spec.2.2.1 "Hello there. Bye." 7 (by decide),
    first_sentences_spec.2.2.2 "no dots at all" 2 (by decide) (by decide)⟩

/-! ### Word splitting and textwrap.shorten on normalized text -/

theorem swGo_ne_nil_of_acc : ∀ (l acc : List Char), acc ≠ [] → swGo acc l ≠ [] := by
  intro l
  induction l with
  | nil =>
    intro acc hacc
    simp [swGo, hacc]
  | cons c cs ih =>
    intro acc hacc
    rw [swGo]
    by_cases hc : isSpaceChar c
    · rw [if_pos hc, if_neg hacc]
      simp
    · rw [if_neg hc]
      exact ih (c :: acc) (by simp)

theorem swGo_nil_ne_nil {cs : List Char} (hh : headNonSpace cs = true) (hne : cs ≠ []) :
    swGo [] cs ≠ [] := by
  cases cs with
  | nil => exact absurd rfl hne
  | cons d ds =>
    have hd : isSpaceChar d = false := by simpa [headNonSpace] using hh
    rw [swGo, if_neg (by simp [hd])]
    exact swGo_ne_nil_of_acc ds [d] (by simp)

theorem swGo_join : ∀ (l : List Char), noDouble l = true → allBlank l = true →
    lastNonSpace l = true → ∀ acc : List Char,
    headNonSpace l = true ∨ acc ≠ [] →
    joinSpace (swGo acc l) = acc.reverse ++ l := by
  intro l
  induction l with
  | nil =>
    intro _ _ _ acc _
    by_cases hacc : acc = []
    · simp [swGo, hacc, joinSpace]
    · simp [swGo, hacc, joinSpace]
  | cons c cs ih =>
    intro h1 h2 h3 acc hd
    have h2' : (isSpaceChar c = false ∨ c = ' ') ∧ allBlank cs = true := by
      simpa [allBlank] using h2
    rw [swGo]
    by_cases hc : isSpaceChar c
    · have hcb : c = ' ' := by
        rcases h2'.1 with h | h
        · rw [h] at hc; cases hc
        · exact h
      have hacc : acc ≠ [] := by
        rcases hd with hd | hd
        · simp [headNonSpace, hc] at hd
        · exact hd
      have hcs : cs ≠ [] := by
        intro habs
        subst habs
        simp [lastNonSpace, hc] at h3
      have h3' : lastNonSpace cs = true := by
        cases cs with
        | nil => exact absurd rfl hcs
        | cons d ds => simpa [lastNonSpace] using h3
      have hhead : headNonSpace cs = true := by
        cases cs with
        | nil => rfl
        | cons d ds =>
          simp [noDouble] at h1
          rcases h1.1 with h | h
          · rw [h] at hc; cases hc
          · simp [headNonSpace, h]
      rw [if_pos hc, if_neg hacc,
        joinSpace_cons (swGo_nil_ne_nil hhead hcs),
        ih (noDouble_tail h1) h2'.2 h3' [] (Or.inl hhead), hcb]
      simp
    · rw [if_neg hc]
      have h3' : lastNonSpace cs = true ∨ cs = [] := by
        cases cs with
        | nil => exact Or.inr rfl
        | cons d ds => exact Or.inl (by simpa [lastNonSpace] using h3)
      rcases h3' with h3' | h3'
      · rw [ih (noDouble_tail h1) h2'.2 h3' (c :: acc) (Or.inr (by simp))]
        simp
      · subst h3'
        simp [swGo, joinSpace]

/-- Rejoining the words of a whitespace-normalized text restores the text. -/
theorem splitWords_join {l : List Char} (h1 : noDouble l = true) (h2 : allBlank l = true)
    (h3 : lastNonSpace l = true) (h4 : headNonSpace l = true) :
    joinSpace (splitWords l) = l := by
  simpa using swGo_join l h1 h2 h3 [] (Or.inl h4)

theorem shortenFit_fits (ws : List (List Char)) (width plLen : Nat) (hpl : plLen ≤ width) :
    (joinSpace (ws.take (shortenFit ws width plLen))).length + plLen ≤ width := by
  rw [shortenFit]
  rcases hfind : ((List.range (ws.length + 1)).reverse).find?
      (fun k => (joinSpace (ws.take k)).length + plLen ≤ width) with _ | k
  · simpa [joinSpace] using hpl
  · have hp := List.find?_some hfind
    simpa using hp

theorem joinSpace_take_append : ∀ (ws : List (List Char)) (k : Nat),
    ∃ rest, joinSpace ws = joinSpace (ws.take k) ++ rest := by
  intro ws
  induction ws with
  | nil =>
    intro k
    exact ⟨[], by simp [joinSpace]⟩
  | cons w ws' ih =>
    intro k
    cases k with
    | zero => exact ⟨joinSpace (w :: ws'), by simp [joinSpace]⟩
    | succ k' =>
      cases ws' with
      | nil => exact ⟨[], by simp [joinSpace]⟩
      | cons v vs =>
        rcases htk : (v :: vs).take k' with _ | ⟨a, as⟩
        · refine ⟨' ' :: joinSpace (v :: vs), ?_⟩
          rw [List.take_succ_cons, htk]
          rw [joinSpace_cons (by simp) w]
          simp [joinSpace]
        · rcases ih k' with ⟨rest, hrest⟩
          refine ⟨rest, ?_⟩
          rw [List.take_succ_cons,
            joinSpace_cons (by simp) w,
            joinSpace_cons (by rw [htk]; simp) w,
            hrest]
          simp

/-- `_short_title` behaves as specified: a cleaned title that fits within 60
characters is returned unchanged, a longer one is word-truncated to at most
60 characters, ends in the "..." placeholder, and keeps a prefix of the
cleaned title. -/
theorem shortTitleL_spec (t : List Char) :
    ((cleanList t).length ≤ 60 → shortTitleL t = cleanList t) ∧
      (60 < (cleanList t).length →
        (shortTitleL t).length ≤ 60 ∧
          ∃ pre, shortTitleL t = pre ++ "...".data ∧
            ∃ rest, cleanList t = pre ++ rest) := by
  have hjoin : joinSpace (splitWords (cleanList t)) = cleanList t :=
    splitWords_join (cleanList_noDouble t) (cleanList_allBlank t)
      (cleanList_lastNonSpace t) (cleanList_headNonSpace t)
  constructor
  · intro hle
    rw [shortTitleL, shortenTo]
    simp only [hjoin]
    rw [if_pos hle]
  · intro hgt
    rw [shortTitleL, shortenTo]
    simp only [hjoin]
    rw [if_neg (by omega)]
    refine ⟨?_, joinSpace ((splitWords (cleanList t)).take
        (shortenFit (splitWords (cleanList t)) 60 "...".data.length)), rfl, ?_⟩
    · rw [List.length_append]
      exact shortenFit_fits (splitWords (cleanList t)) 60 "...".data.length (by decide)
    · rcases joinSpace_take_append (splitWords (cleanList t))
          (shortenFit (splitWords (cleanList t)) 60 "...".data.length) with ⟨rest, hrest⟩
      exact ⟨rest, hjoin.symm.trans hrest⟩

/-! ### C3: the digest subject line -/

/-- C3: for every non-empty batch the subject is the fixed emoji-and-label
prefix followed by exactly the shortened cleaned titles of the first
min(3, |batch|) articles joined with ", "; each shortened title equals the
cleaned title when that fits in 60 characters, and otherwise is at most 60
characters long, ends in the "..." placeholder, and keeps a prefix of the
cleaned title. -/
theorem create_formatted_digest_subject (articles : List Article)
    (h : articles ≠ []) :
    (create_formatted_digest articles).1 =
        "🚀 Top AI Developments: " ++
          String.intercalate ", "
            ((articles.take 3).map (fun a => short_title a.title)) ∧
      ∀ t : String,
        ((clean_text t).length ≤ 60 → short_title t = clean_text t) ∧
        (60 < (clean_text t).length →
          (short_title t).length ≤ 60 ∧
            ∃ pre, (short_title t).data = pre ++ "...".data ∧
              ∃ rest, (clean_text t).data = pre ++ rest) := by
  constructor
  · rw [create_formatted_digest, if_neg h]
    show subjectOf (articles.take 5) = _
    rw [subjectOf, List.take_take]
    norm_num
  · intro t
    have hs := shortTitleL_spec t.data
    constructor
    · intro hle
      exact congrArg String.mk (hs.1 hle)
    · intro hgt
      rcases hs.2 hgt with ⟨hlen, pre, hpre, rest, hrest⟩
      exact ⟨hlen, pre, congrArg String.data (congrArg String.mk hpre), rest, hrest⟩

/-- Witness for C3 at a concrete one-article batch and a concrete short
title. -/
theorem create_formatted_digest_subject_witness :
    (create_formatted_digest [⟨"AI title", "", "", "S"⟩]).1 =
        "🚀 Top AI Developments: " ++
          String.intercalate ", "
            ((([⟨"AI title", "", "", "S"⟩] : List Article).take 3).map
              (fun a => short_title a.title)) ∧
      short_title "Tiny" = clean_text "Tiny" :=
  ⟨(create_formatted_digest_subject [⟨"AI title", "", "", "S"⟩] (by simp)).1,
    ((create_formatted_digest_subject [⟨"AI title", "", "", "S"⟩] (by simp)).2 "Tiny").1
      (by decide)⟩

/-! ### C7: selection of the first five and the Read-More section -/

theorem readMoreLines_eq (selected : List Article) :
    readMoreLines selected =
      (selected.filter (fun a => a.link ≠ "")).map
        (fun a => clean_text a.title ++ " – " ++ a.link) := by
  induction selected with
  | nil => rfl
  | cons a rest ih =>
    simp only [readMoreLines] at ih ⊢
    rw [List.filterMap_cons, List.filter_cons]
    by_cases hl : a.link = ""
    · simp [hl, ih]
    · simp [hl, ih]

theorem bulletLinesGo_mem : ∀ (sel : List Article) (start i : Nat) (h : i < sel.length),
    choose_emoji (sel.get ⟨i, h⟩).title (sel.get ⟨i, h⟩).summary ++ " " ++
        toString (start + i) ++ ". " ++ (sel.get ⟨i, h⟩).title
      ∈ bulletLinesGo start sel := by
  intro sel
  induction sel with
  | nil =>
    intro start i h
    exact absurd h (Nat.not_lt_zero i)
  | cons a rest ih =>
    intro start i h
    cases i with
    | zero =>
      rw [bulletLinesGo]
      apply List.mem_append_left
      show _ ∈ bulletBlock start a
      rw [bulletBlock]
      apply List.mem_append_left
      apply List.mem_append_left
      simp
    | succ i' =>
      rw [bulletLinesGo]
      apply List.mem_append_right
      have hmem := ih (start + 1) i' (Nat.lt_of_succ_lt_succ h)
      rw [show start + (i' + 1) = (start + 1) + i' from by omega]
      simpa using hmem

/-- C7: for a batch of six keyword-matching articles with distinct titles and
links, the formatter selects exactly the first five; the body is the header,
the enumerated bullet blocks of those five, the fixed Read-More header, and
one "{cleaned title} – {link}" line per selected article with a non-empty
link, in batch order (articles with empty links are omitted there); and every
selected article, empty link or not, still gets its enumerated bullet
headline. -/
theorem create_formatted_digest_read_more (articles : List Article)
    (hlen : articles.length = 6)
    (_htitles : (articles.map (fun a => a.title)).Nodup)
    (_hlinks : (articles.map (fun a => a.link)).Nodup)
    (_hmatch : ∀ a ∈ articles, matchesKeywords a.title a.summary = true) :
    (articles.take 5).length = 5 ∧
      (create_formatted_digest articles).2 =
        String.intercalate "\n"
          (headerLines (subjectOf (articles.take 5)) ++
            bulletLinesGo 1 (articles.take 5) ++
            ["🔗 Read More (Sources)", ""] ++ readMoreLines (articles.take 5)) ∧
      readMoreLines (articles.take 5) =
        ((articles.take 5).filter (fun a => a.link ≠ "")).map
          (fun a => clean_text a.title ++ " – " ++ a.link) ∧
      ∀ (i : Nat) (h : i < (articles.take 5).length),
        choose_emoji ((articles.take 5).get ⟨i, h⟩).title
              ((articles.take 5).get ⟨i, h⟩).summary ++ " " ++ toString (1 + i) ++ ". " ++
            ((articles.take 5).get ⟨i, h⟩).title
          ∈ bulletLinesGo 1 (articles.take 5) := by
  have hne : articles ≠ [] := by
    intro habs
    rw [habs] at hlen
    cases hlen
  refine ⟨?_, ?_, readMoreLines_eq _, ?_⟩
  · simp [List.length_take, hlen]
  · rw [create_formatted_digest, if_neg hne]
    simp only [digestLines]
  · intro i h
    exact bulletLinesGo_mem (articles.take 5) 1 i h

/-- Witness for C7 on a concrete six-article batch whose second article has
an empty link. -/
theorem create_formatted_digest_read_more_witness :
    readMoreLines (demoBatch.take 5) =
      ((demoBatch.take 5).filter (fun a => a.link ≠ "")).map
        (fun a => clean_text a.title ++ " – " ++ a.link) :=
  (create_formatted_digest_read_more demoBatch rfl (by decide) (by decide)
    (by decide)).2.2.1
